import Mathlib

/-!
Shallow embedding of the TMarSel marker-selection core
(`src/TMarSel/TMarSel.py`) and proofs about its specified behaviour.

Matrices are lists of rows over `ℚ` (the Python code mixes integer
copy-number matrices with a rational pseudocount, so all arithmetic is
carried out in `ℚ`); string labels are coded as natural numbers (only
their decidable equality and linear order matter).
-/

namespace TMarSel

/-- Componentwise addition of two vectors, modelling the numpy broadcast
`counts + data[g]` (both operands have the same length in context). -/
def vecAdd (a b : List ℚ) : List ℚ := List.zipWith (· + ·) a b

/-- Index of the first occurrence of the maximum of a list, modelling
`np.argmax` (which returns the first occurrence on ties); `0` on `[]`. -/
def argmax : List ℚ → Nat
  | [] => 0
  | [_] => 0
  | x :: y :: ys =>
    if x < (y :: ys).getD (argmax (y :: ys)) 0 then argmax (y :: ys) + 1 else 0

/-- Minimum of a row, modelling `ndarray.min(axis = 1)` applied to one
row (rows are nonempty in context; `0` on `[]`). -/
def rowMin : List ℚ → ℚ
  | [] => 0
  | x :: xs => xs.foldl min x

/-- Maximum of a row, modelling `ndarray.max(axis = 1)` applied to one
row (rows are nonempty in context; `0` on `[]`). -/
def rowMax : List ℚ → ℚ
  | [] => 0
  | x :: xs => xs.foldl max x

/-- One iteration's trial vectors `sums_ = counts + data`: row `g` is
`counts + data[g]`. -/
def iterSums (data : List (List ℚ)) (counts : List ℚ) : List (List ℚ) :=
  data.map (vecAdd counts)

/-- One iteration's per-row scores (the dispatch on `p` is abstracted as
the row-scoring function `score`). -/
def iterScores (score : List ℚ → ℚ) (data : List (List ℚ)) (counts : List ℚ) : List ℚ :=
  (iterSums data counts).map score

/-- One iteration's chosen position in the current (shrunken) matrix:
`choice = <scores>.argmax()`. -/
def iterChoice (score : List ℚ → ℚ) (data : List (List ℚ)) (counts : List ℚ) : Nat :=
  argmax (iterScores score data counts)

/-- One iteration's updated cumulative counts: `counts = sums_[choice]`. -/
def nextCounts (score : List ℚ → ℚ) (data : List (List ℚ)) (counts : List ℚ) : List ℚ :=
  (iterSums data counts).getD (iterChoice score data counts) counts

/-- The selection loop of `greedy_power_mean_sample_final`: iterate `k`
times, each time scoring every remaining row, picking the argmax,
recording its original index, updating `counts` and deleting the chosen
row from both the working matrix and the index array.  Returns the
selected original indices in order together with the final `counts`. -/
def greedyLoop (score : List ℚ → ℚ) :
    Nat → List (List ℚ) → List Nat → List ℚ → List Nat × List ℚ
  | 0, _, _, counts => ([], counts)
  | Nat.succ k, data, indices, counts =>
    let choice := iterChoice score data counts
    let rest := greedyLoop score k (data.eraseIdx choice) (indices.eraseIdx choice)
      (nextCounts score data counts)
    (indices.getD choice 0 :: rest.1, rest.2)

/-- Predicate for the `(data == 0).all()` check. -/
def allZero (data : List (List ℚ)) : Bool :=
  data.all (fun row => row.all (fun x => x == 0))

/-- Embedding of `greedy_power_mean_sample_final(data, k, p, pseudocount)`.
`m` is `data.shape[1]` (every row of `data` has length `m` in context);
`k` is a Python `int`, so the loop `for i in range(k)` runs `k.toNat`
times; the scoring dispatch on `p` (`pmean` for integer `p`, row minimum
for `p = min`, row maximum for `p = max`) is abstracted as the per-row
function `score`.  Errors are modelled by `Except.error`. -/
def greedy_power_mean_sample_final (data : List (List ℚ)) (m : Nat) (k : Int)
    (score : List ℚ → ℚ) (pseudocount : ℚ) : Except String (List Nat) :=
  let n := data.length
  if n = 0 ∨ m = 0 then Except.error "Matrix is empty!"
  else if allZero data then Except.error "Matrix only contains zeroes"
  else if (n : Int) ≤ k then Except.error "k should be smaller than n"
  else
    Except.ok (greedyLoop score k.toNat (data.map (List.map (· + pseudocount)))
      (List.range n) (List.replicate m 0)).1

/-- Annotation record after parsing: one row of the dataframe.  Labels
(`genome`, `gene_family`) are coded as naturals, `bit_score` is a
rational. -/
structure Rec where
  genome : Nat
  gene_family : Nat
  bit_score : ℚ
deriving DecidableEq

/-- Bit scores of one `(genome, gene_family)` group of the dataframe,
modelling `df.groupby([genome, gene_family])[bit_score]`. -/
def groupScores (df : List Rec) (g f : Nat) : List ℚ :=
  (df.filter (fun r => r.genome == g && r.gene_family == f)).map Rec.bit_score

/-- Maximum bit score of a `(genome, gene_family)` group, modelling the
`transform(max)` value attached to each record of that group. -/
def groupMax (df : List Rec) (g f : Nat) : ℚ :=
  rowMax (groupScores df g f)

/-- Embedding of `filter_copies(df, threshold)`: validate the threshold,
then keep the records whose bit score is at least `group max * threshold`. -/
def filter_copies (df : List Rec) (threshold : ℚ) : Except String (List Rec) :=
  if ¬(0 ≤ threshold ∧ threshold ≤ 1) then
    Except.error "Threshold should be a value between 0 and 1."
  else
    Except.ok (df.filter (fun r => groupMax df r.genome r.gene_family * threshold ≤ r.bit_score))

/-- Sorted distinct values of a list, modelling the values returned by
`np.unique`. -/
def uniqueSorted (l : List Nat) : List Nat :=
  List.insertionSort (· ≤ ·) l.dedup

/-- Embedding of `np.bincount(l, minlength)`: position `i` holds the
number of occurrences of `i` in `l`; the length is the larger of
`minlength` and `max(l) + 1`. -/
def bincount (l : List Nat) (minlength : Nat) : List Nat :=
  (List.range (max minlength (l.foldr (fun a b => max (a + 1) b) 0))).map (fun i => l.count i)

/-- Embedding of `ndarray.reshape(rows, cols)` on a flat list stored in
row-major order. -/
def reshape2 (l : List Nat) (rows cols : Nat) : List (List Nat) :=
  (List.range rows).map (fun i => (List.range cols).map (fun j => l.getD (i * cols + j) 0))

/-- Embedding of `build_copy_number_matrix(edges_genes, edges_genomes)`:
`np.unique(..., return_inverse = True)` yields the sorted distinct labels
and, for each edge position, the index of its label in that array; the
flat combined indices are bin-counted and reshaped into the adjacency
matrix.  Returns `(adj, genomes, genes)` as the Python does. -/
def build_copy_number_matrix (edges_genes edges_genomes : List Nat) :
    List (List Nat) × List Nat × List Nat :=
  let genes := uniqueSorted edges_genes
  let genomes := uniqueSorted edges_genomes
  let flat := List.zipWith
    (fun a b => genes.indexOf a * genomes.length + genomes.indexOf b)
    edges_genes edges_genomes
  let counts := bincount flat (genes.length * genomes.length)
  (reshape2 counts genes.length genomes.length, genomes, genes)

/-- Column sums of the selected rows, modelling
`adj[markers_index].sum(axis = 0)` (`m` is the number of columns). -/
def selSums (adj : List (List ℚ)) (markers : List Nat) (m : Nat) : List ℚ :=
  markers.foldl (fun acc i => vecAdd acc (adj.getD i [])) (List.replicate m 0)

/-- The dynamically typed `min_markers` parameter: argparse produces a
Python `float` when the argument contains a dot and an `int` otherwise. -/
inductive MinMarkers where
  | float (q : ℚ)
  | int (z : ℤ)
deriving DecidableEq

/-- The threshold computed by `get_genomes_to_keep`:
`min_markers * k if isinstance(min_markers, float) and 0 <= min_markers <= 1
else min_markers`. -/
def mmThreshold (mm : MinMarkers) (k : ℤ) : ℚ :=
  match mm with
  | MinMarkers.float q => if 0 ≤ q ∧ q ≤ 1 then q * k else q
  | MinMarkers.int z => (z : ℚ)

/-- Embedding of `get_genomes_to_keep(adj, k, markers_index, min_markers,
genomes)`: return the genome labels at the columns whose selected-row sum
reaches the threshold (boolean-mask indexing of `genomes`). -/
def get_genomes_to_keep (adj : List (List ℚ)) (k : ℤ) (markers_index : List Nat)
    (min_markers : MinMarkers) (genomes : List Nat) : List Nat :=
  ((genomes.zip (selSums adj markers_index genomes.length)).filter
    (fun p => mmThreshold min_markers k ≤ p.2)).map Prod.fst

/-- getD at an in-range position is get. -/
theorem getD_eq_get_of_lt {α : Type} (l : List α) (d : α) {n : Nat} (h : n < l.length) :
    l.getD n d = l.get ⟨n, h⟩ := by
  simp [List.getD_eq_getElem?_getD, List.getElem?_eq_getElem h, List.get_eq_getElem]

/-- argmax returns an in-range position on nonempty lists. -/
theorem argmax_lt_length : ∀ (l : List ℚ), l ≠ [] → argmax l < l.length
  | [_], _ => by simp [argmax]
  | x :: y :: ys, _ => by
    have ih := argmax_lt_length (y :: ys) (by simp)
    simp only [argmax]
    split
    · simpa using ih
    · simp

/-- argmax attains the maximum of the list. -/
theorem getD_le_getD_argmax :
    ∀ (l : List ℚ) (j : Nat), j < l.length → l.getD j 0 ≤ l.getD (argmax l) 0
  | [_], 0, _ => le_refl _
  | x :: y :: ys, j, hj => by
    have ih := getD_le_getD_argmax (y :: ys)
    simp only [argmax]
    split
    · case isTrue h =>
      rw [List.getD_cons_succ]
      match j with
      | 0 => exact le_of_lt h
      | Nat.succ j' =>
        rw [List.getD_cons_succ]
        exact ih j' (by simpa using hj)
    · case isFalse h =>
      rw [List.getD_cons_zero]
      match j with
      | 0 => exact le_refl x
      | Nat.succ j' =>
        rw [List.getD_cons_succ]
        exact le_trans (ih j' (by simpa using hj)) (not_lt.mp h)

/-- Positions strictly before the argmax score strictly below it: the
argmax is the FIRST occurrence of the maximum. -/
theorem getD_lt_getD_argmax_of_lt :
    ∀ (l : List ℚ) (j : Nat), j < argmax l → l.getD j 0 < l.getD (argmax l) 0
  | [], j, hj => by simp [argmax] at hj
  | [_], j, hj => by simp [argmax] at hj
  | x :: y :: ys, j, hj => by
    have ih := getD_lt_getD_argmax_of_lt (y :: ys)
    simp only [argmax] at hj ⊢
    split
    · case isTrue h =>
      rw [List.getD_cons_succ]
      match j with
      | 0 => exact h
      | Nat.succ j' =>
        rw [List.getD_cons_succ]
        rw [if_pos h] at hj
        exact ih j' (by omega)
    · case isFalse h =>
      rw [if_neg h] at hj
      omega

/-- The selection loop always returns exactly as many indices as it is
asked to run iterations, whatever the shapes are. -/
theorem greedyLoop_fst_length (score : List ℚ → ℚ) :
    ∀ (k : Nat) (data : List (List ℚ)) (indices : List Nat) (counts : List ℚ),
      ((greedyLoop score k data indices counts).1).length = k
  | 0, _, _, _ => rfl
  | Nat.succ k, data, indices, counts => by
    simp only [greedyLoop, List.length_cons]
    rw [greedyLoop_fst_length score k]

/-- The per-iteration score list has one entry per remaining row. -/
theorem length_iterScores (score : List ℚ → ℚ) (data : List (List ℚ)) (counts : List ℚ) :
    (iterScores score data counts).length = data.length := by
  simp [iterScores, iterSums]

/-- The per-iteration choice is an in-range row position of the current
working matrix, when that matrix is nonempty. -/
theorem iterChoice_lt_length (score : List ℚ → ℚ) (data : List (List ℚ)) (counts : List ℚ)
    (h : data ≠ []) : iterChoice score data counts < data.length := by
  have hne : iterScores score data counts ≠ [] := by
    intro hc
    have := length_iterScores score data counts
    rw [hc] at this
    exact h (List.length_eq_zero.mp this.symm)
  have := argmax_lt_length _ hne
  rwa [length_iterScores] at this

/-- Every index the loop returns comes from the running index array. -/
theorem greedyLoop_fst_mem (score : List ℚ → ℚ) :
    ∀ (k : Nat) (data : List (List ℚ)) (indices : List Nat) (counts : List ℚ),
      k ≤ data.length → indices.length = data.length →
      ∀ x ∈ (greedyLoop score k data indices counts).1, x ∈ indices
  | 0, _, _, _, _, _ => by intro x hx; simp [greedyLoop] at hx
  | Nat.succ k, data, indices, counts, hk, hlen => by
    intro x hx
    have hne : data ≠ [] := by
      intro hd; rw [hd] at hk; simp at hk
    have hchoice : iterChoice score data counts < data.length :=
      iterChoice_lt_length score data counts hne
    have hchoiceI : iterChoice score data counts < indices.length := by omega
    simp only [greedyLoop, List.mem_cons] at hx
    rcases hx with rfl | hx
    · rw [getD_eq_get_of_lt indices 0 hchoiceI]
      exact List.get_mem indices _ hchoiceI
    · have hk' : k ≤ (data.eraseIdx (iterChoice score data counts)).length := by
        rw [List.length_eraseIdx]
        simp only [hchoice, if_pos]
        omega
      have hlen' : (indices.eraseIdx (iterChoice score data counts)).length
          = (data.eraseIdx (iterChoice score data counts)).length := by
        rw [List.length_eraseIdx, List.length_eraseIdx]
        simp only [hchoice, hchoiceI, if_pos]
        omega
      have := greedyLoop_fst_mem score k _ _ _ hk' hlen' x hx
      exact (List.eraseIdx_sublist indices _).mem this

/-- A nodup list does not retain the erased element. -/
theorem get_not_mem_eraseIdx {α : Type} [DecidableEq α] (l : List α) (hnd : l.Nodup)
    {i : Nat} (h : i < l.length) : l.get ⟨i, h⟩ ∉ l.eraseIdx i := by
  intro hmem
  rcases List.mem_eraseIdx_iff_getElem.mp hmem with ⟨j, hjlt, hji, hj⟩
  rw [List.get_eq_getElem] at hj
  exact hji ((List.Nodup.getElem_inj_iff hnd).mp hj)

/-- The indices the loop returns are pairwise distinct. -/
theorem greedyLoop_fst_nodup (score : List ℚ → ℚ) :
    ∀ (k : Nat) (data : List (List ℚ)) (indices : List Nat) (counts : List ℚ),
      k ≤ data.length → indices.length = data.length → indices.Nodup →
      (greedyLoop score k data indices counts).1.Nodup
  | 0, _, _, _, _, _, _ => by simp [greedyLoop]
  | Nat.succ k, data, indices, counts, hk, hlen, hnd => by
    have hne : data ≠ [] := by
      intro hd; rw [hd] at hk; simp at hk
    have hchoice : iterChoice score data counts < data.length :=
      iterChoice_lt_length score data counts hne
    have hchoiceI : iterChoice score data counts < indices.length := by omega
    have hk' : k ≤ (data.eraseIdx (iterChoice score data counts)).length := by
      rw [List.length_eraseIdx]
      simp only [hchoice, if_pos]
      omega
    have hlen' : (indices.eraseIdx (iterChoice score data counts)).length
        = (data.eraseIdx (iterChoice score data counts)).length := by
      rw [List.length_eraseIdx, List.length_eraseIdx]
      simp only [hchoice, hchoiceI, if_pos]
      omega
    have hnd' : (indices.eraseIdx (iterChoice score data counts)).Nodup :=
      hnd.sublist (List.eraseIdx_sublist indices _)
    simp only [greedyLoop, List.nodup_cons]
    refine ⟨?_, greedyLoop_fst_nodup score k _ _ _ hk' hlen' hnd'⟩
    intro hmem
    have hsub := greedyLoop_fst_mem score k _ _ _ hk' hlen' _ hmem
    rw [getD_eq_get_of_lt indices 0 hchoiceI] at hsub
    exact get_not_mem_eraseIdx indices hnd hchoiceI hsub

/-- C1: for every matrix with `n` rows and `m` columns that passes the
entry checks (`n > 0`, `m > 0`, not all-zero) and every `k` with
`1 ≤ k < n`, `greedy_power_mean_sample_final` returns a sequence of
exactly `k` row indices, pairwise distinct, each a valid row index of
the input matrix. -/
theorem C1_greedy_returns_k_distinct_valid_indices
    (data : List (List ℚ)) (m : Nat) (k : Int) (score : List ℚ → ℚ) (pseudocount : ℚ)
    (hm : 0 < m) (hz : allZero data = false)
    (hk1 : 1 ≤ k) (hkn : k < (data.length : Int)) :
    ∃ sel : List Nat,
      greedy_power_mean_sample_final data m k score pseudocount = Except.ok sel ∧
      (sel.length : Int) = k ∧ sel.Nodup ∧ ∀ x ∈ sel, x < data.length := by
  have heq : greedy_power_mean_sample_final data m k score pseudocount
      = Except.ok (greedyLoop score k.toNat (data.map (List.map (· + pseudocount)))
        (List.range data.length) (List.replicate m 0)).1 := by
    unfold greedy_power_mean_sample_final
    rw [if_neg (by omega), if_neg (by simp [hz]), if_neg (by omega)]
  have hdlen : (data.map (List.map (· + pseudocount))).length = data.length :=
    List.length_map _ _
  have hkn' : k.toNat ≤ (data.map (List.map (· + pseudocount))).length := by
    rw [hdlen]; omega
  have hlen' : (List.range data.length).length
      = (data.map (List.map (· + pseudocount))).length := by
    rw [hdlen, List.length_range]
  refine ⟨_, heq, ?_, ?_, ?_⟩
  · rw [greedyLoop_fst_length]; omega
  · exact greedyLoop_fst_nodup score _ _ _ _ hkn' hlen' (List.nodup_range _)
  · intro x hx
    exact List.mem_range.mp (greedyLoop_fst_mem score _ _ _ _ hkn' hlen' x hx)

/-- C1 witness: a concrete valid 3-by-2 matrix with k = 1. -/
theorem C1_witness :
    0 < 2 ∧ allZero [[1, 0], [0, 1], [1, 1]] = false ∧ (1 : Int) ≤ 1 ∧
      (1 : Int) < (([[1, 0], [0, 1], [1, 1]] : List (List ℚ)).length : Int) ∧
      ∃ sel : List Nat,
        greedy_power_mean_sample_final [[1, 0], [0, 1], [1, 1]] 2 1 rowMin (1/10)
          = Except.ok sel ∧
        (sel.length : Int) = 1 ∧ sel.Nodup ∧
        ∀ x ∈ sel, x < ([[1, 0], [0, 1], [1, 1]] : List (List ℚ)).length :=
  ⟨by decide, by decide, by decide, by decide,
    C1_greedy_returns_k_distinct_valid_indices [[1, 0], [0, 1], [1, 1]] 2 1 rowMin (1/10)
      (by decide) (by decide) (by decide) (by decide)⟩

/-- C3: `greedy_power_mean_sample_final` fails, with no selection
performed (the embedding returns `Except.error` and no partial result),
exactly when the matrix has zero rows, zero columns, only zero entries,
or `k ≥ n`. -/
theorem C3_greedy_error_iff_degenerate
    (data : List (List ℚ)) (m : Nat) (k : Int) (score : List ℚ → ℚ) (pseudocount : ℚ) :
    (∃ e, greedy_power_mean_sample_final data m k score pseudocount = Except.error e)
      ↔ (data.length = 0 ∨ m = 0 ∨ allZero data = true ∨ (data.length : Int) ≤ k) := by
  simp only [greedy_power_mean_sample_final]
  split_ifs with h1 h2 h3
  · refine iff_of_true ⟨_, rfl⟩ ?_
    rcases h1 with h | h
    · exact Or.inl h
    · exact Or.inr (Or.inl h)
  · exact iff_of_true ⟨_, rfl⟩ (Or.inr (Or.inr (Or.inl h2)))
  · exact iff_of_true ⟨_, rfl⟩ (Or.inr (Or.inr (Or.inr h3)))
  · refine iff_of_false ?_ ?_
    · rintro ⟨e, he⟩
      simp at he
    · intro h
      rcases h with h | h | h | h
      · exact h1 (Or.inl h)
      · exact h1 (Or.inr h)
      · exact h2 h
      · exact h3 h

/-- C10: for every matrix passing the degeneracy checks and every
`k ≤ 0`, `greedy_power_mean_sample_final` raises no error and returns
the empty selection. -/
theorem C10_nonpositive_k_returns_empty_selection
    (data : List (List ℚ)) (m : Nat) (k : Int) (score : List ℚ → ℚ) (pseudocount : ℚ)
    (hn : 0 < data.length) (hm : 0 < m) (hz : allZero data = false) (hk : k ≤ 0) :
    greedy_power_mean_sample_final data m k score pseudocount = Except.ok [] := by
  unfold greedy_power_mean_sample_final
  rw [if_neg (by omega), if_neg (by simp [hz]), if_neg (by omega)]
  have hk0 : k.toNat = 0 := by omega
  rw [hk0]
  rfl

/-- C10 witness: a concrete 1-by-1 nonzero matrix with k = 0. -/
theorem C10_witness :
    0 < ([[1]] : List (List ℚ)).length ∧ 0 < 1 ∧ allZero [[1]] = false ∧ (0 : Int) ≤ 0 ∧
      greedy_power_mean_sample_final [[1]] 1 0 rowMin (1/10) = Except.ok [] :=
  ⟨by decide, by decide, by decide, by decide,
    C10_nonpositive_k_returns_empty_selection [[1]] 1 0 rowMin (1/10)
      (by decide) (by decide) (by decide) (by decide)⟩

/-- C2: in any iteration of the selection loop (arbitrary remaining
working matrix and strictly increasing remaining original indices, as
maintained by the loop from `np.arange(n)` under deletions), the row
selected attains the maximum score, and among rows whose score ties the
maximum exactly it carries the smallest remaining original index. -/
theorem C2_argmax_tie_break_smallest_original_index
    (score : List ℚ → ℚ) (data : List (List ℚ)) (indices : List Nat) (counts : List ℚ)
    (k : Nat) (hlen : indices.length = data.length) (hne : data ≠ [])
    (hsort : indices.Sorted (· < ·)) :
    ((greedyLoop score (k + 1) data indices counts).1.headD 0
        = indices.getD (iterChoice score data counts) 0)
    ∧ (∀ j, j < data.length →
        (iterScores score data counts).getD j 0
          ≤ (iterScores score data counts).getD (iterChoice score data counts) 0)
    ∧ (∀ j, j < data.length →
        (iterScores score data counts).getD j 0
          = (iterScores score data counts).getD (iterChoice score data counts) 0 →
        indices.getD (iterChoice score data counts) 0 ≤ indices.getD j 0) := by
  have hchoice : iterChoice score data counts < data.length :=
    iterChoice_lt_length score data counts hne
  refine ⟨rfl, ?_, ?_⟩
  · intro j hj
    exact getD_le_getD_argmax (iterScores score data counts) j
      (by rwa [length_iterScores])
  · intro j hj heq
    have hjI : j < indices.length := by omega
    have hcI : iterChoice score data counts < indices.length := by omega
    rcases Nat.lt_or_ge j (iterChoice score data counts) with hlt | hge
    · exfalso
      have := getD_lt_getD_argmax_of_lt (iterScores score data counts) j hlt
      rw [heq] at this
      exact lt_irrefl _ this
    · rw [getD_eq_get_of_lt indices 0 hcI, getD_eq_get_of_lt indices 0 hjI]
      rcases Nat.eq_or_lt_of_le hge with hge' | hlt'
      · exact le_of_eq (congrArg indices.get (Fin.ext (a := ⟨_, hcI⟩) (b := ⟨_, hjI⟩) hge'))
      · exact le_of_lt (hsort.rel_get_of_lt hlt')

/-- C2 witness: two rows with exactly tied scores; the first (smaller
original index) is selected. -/
theorem C2_witness :
    ([0, 1] : List Nat).length = ([[1], [1]] : List (List ℚ)).length ∧
      ([[1], [1]] : List (List ℚ)) ≠ [] ∧ List.Sorted (· < ·) [0, 1] ∧
      (((greedyLoop rowMin (0 + 1) [[1], [1]] [0, 1] [0]).1.headD 0
          = List.getD [0, 1] (iterChoice rowMin [[1], [1]] [0]) 0)
        ∧ (∀ j, j < ([[1], [1]] : List (List ℚ)).length →
            (iterScores rowMin [[1], [1]] [0]).getD j 0
              ≤ (iterScores rowMin [[1], [1]] [0]).getD (iterChoice rowMin [[1], [1]] [0]) 0)
        ∧ (∀ j, j < ([[1], [1]] : List (List ℚ)).length →
            (iterScores rowMin [[1], [1]] [0]).getD j 0
              = (iterScores rowMin [[1], [1]] [0]).getD (iterChoice rowMin [[1], [1]] [0]) 0 →
            List.getD [0, 1] (iterChoice rowMin [[1], [1]] [0]) 0 ≤ List.getD [0, 1] j 0)) :=
  ⟨by decide, by decide, by decide,
    C2_argmax_tie_break_smallest_original_index rowMin [[1], [1]] [0, 1] [0] 0
      (by decide) (by decide) (by decide)⟩

/-- Componentwise reading of `vecAdd`. -/
theorem getD_vecAdd (a b : List ℚ) (j : Nat) (hja : j < a.length) (hjb : j < b.length) :
    (vecAdd a b).getD j 0 = a.getD j 0 + b.getD j 0 := by
  have hj : j < (vecAdd a b).length := by
    simp only [vecAdd, List.length_zipWith]
    omega
  rw [getD_eq_get_of_lt _ 0 hj, getD_eq_get_of_lt a 0 hja, getD_eq_get_of_lt b 0 hjb]
  simp [vecAdd, List.get_eq_getElem, List.getElem_zipWith]

/-- Updating `counts` with the chosen trial vector keeps its length. -/
theorem length_nextCounts (score : List ℚ → ℚ) (data : List (List ℚ)) (counts : List ℚ)
    (hlen : ∀ row ∈ data, row.length = counts.length) :
    (nextCounts score data counts).length = counts.length := by
  rcases eq_or_ne data [] with rfl | hne
  · rfl
  · have hchoice : iterChoice score data counts < data.length :=
      iterChoice_lt_length score data counts hne
    have hlt : iterChoice score data counts < (iterSums data counts).length := by
      simpa [iterSums] using hchoice
    rw [nextCounts, getD_eq_get_of_lt _ counts hlt]
    simp only [iterSums, List.get_eq_getElem, List.getElem_map]
    have hmem : data[iterChoice score data counts] ∈ data := List.getElem_mem _
    simp only [vecAdd, List.length_zipWith, hlen _ hmem]
    omega

/-- One update of the cumulative counts is componentwise non-decreasing,
provided the working matrix is entrywise non-negative. -/
theorem nextCounts_mono (score : List ℚ → ℚ) (data : List (List ℚ)) (counts : List ℚ)
    (hpos : ∀ row ∈ data, ∀ x ∈ row, 0 ≤ x)
    (hlen : ∀ row ∈ data, row.length = counts.length) :
    ∀ j, j < counts.length → counts.getD j 0 ≤ (nextCounts score data counts).getD j 0 := by
  intro j hj
  rcases eq_or_ne data [] with rfl | hne
  · exact le_refl _
  · have hchoice : iterChoice score data counts < data.length :=
      iterChoice_lt_length score data counts hne
    have hlt : iterChoice score data counts < (iterSums data counts).length := by
      simpa [iterSums] using hchoice
    rw [nextCounts, getD_eq_get_of_lt _ counts hlt]
    simp only [iterSums, List.get_eq_getElem, List.getElem_map]
    have hmem : data[iterChoice score data counts] ∈ data := List.getElem_mem _
    have hrow : (data[iterChoice score data counts]).length = counts.length := hlen _ hmem
    rw [getD_vecAdd counts _ j hj (by omega)]
    have hx : 0 ≤ (data[iterChoice score data counts]).getD j 0 := by
      rw [getD_eq_get_of_lt _ 0 (by omega)]
      exact hpos _ hmem _ (List.get_mem _ _ _)
    linarith

/-- Monotonicity propagates through the whole selection loop. -/
theorem greedyLoop_counts_mono (score : List ℚ → ℚ) :
    ∀ (k : Nat) (data : List (List ℚ)) (indices : List Nat) (counts : List ℚ),
      (∀ row ∈ data, ∀ x ∈ row, 0 ≤ x) → (∀ row ∈ data, row.length = counts.length) →
      ∀ j, j < counts.length →
        counts.getD j 0 ≤ (greedyLoop score k data indices counts).2.getD j 0
  | 0, _, _, _, _, _, _, _ => le_refl _
  | Nat.succ k, data, indices, counts, hpos, hlen, j, hj => by
    have hstep := nextCounts_mono score data counts hpos hlen j hj
    have hlenN := length_nextCounts score data counts hlen
    have hpos' : ∀ row ∈ data.eraseIdx (iterChoice score data counts), ∀ x ∈ row, 0 ≤ x :=
      fun row hrow => hpos row ((List.eraseIdx_sublist data _).mem hrow)
    have hlen' : ∀ row ∈ data.eraseIdx (iterChoice score data counts),
        row.length = (nextCounts score data counts).length := by
      intro row hrow
      rw [hlenN]
      exact hlen row ((List.eraseIdx_sublist data _).mem hrow)
    have hrec := greedyLoop_counts_mono score k
      (data.eraseIdx (iterChoice score data counts))
      (indices.eraseIdx (iterChoice score data counts))
      (nextCounts score data counts) hpos' hlen' j (by omega)
    simp only [greedyLoop]
    exact le_trans hstep hrec

/-- C9: with non-negative entries (the pseudocount-augmented matrix is
entrywise positive), the cumulative counts vector is componentwise
non-decreasing: each update adds the chosen row, and hence along the
whole loop the counts never decrease in any genome column. -/
theorem C9_cumulative_counts_nondecreasing
    (score : List ℚ → ℚ) (data : List (List ℚ)) (indices : List Nat) (counts : List ℚ)
    (k : Nat) (hpos : ∀ row ∈ data, ∀ x ∈ row, 0 ≤ x)
    (hlen : ∀ row ∈ data, row.length = counts.length) :
    (∀ j, j < counts.length →
      counts.getD j 0 ≤ (nextCounts score data counts).getD j 0)
    ∧ ∀ j, j < counts.length →
      counts.getD j 0 ≤ (greedyLoop score k data indices counts).2.getD j 0 :=
  ⟨nextCounts_mono score data counts hpos hlen,
    greedyLoop_counts_mono score k data indices counts hpos hlen⟩

/-- C9 witness: one selection step on a concrete 2-by-1 matrix. -/
theorem C9_witness :
    (∀ row ∈ ([[1], [2]] : List (List ℚ)), ∀ x ∈ row, 0 ≤ x) ∧
      (∀ row ∈ ([[1], [2]] : List (List ℚ)), row.length = ([0] : List ℚ).length) ∧
      ((∀ j, j < ([0] : List ℚ).length →
          List.getD [0] j 0 ≤ (nextCounts rowMin [[1], [2]] [0]).getD j 0)
        ∧ ∀ j, j < ([0] : List ℚ).length →
          List.getD [0] j 0 ≤ (greedyLoop rowMin 1 [[1], [2]] [0, 1] [0]).2.getD j 0) :=
  ⟨by decide, by decide,
    C9_cumulative_counts_nondecreasing rowMin [[1], [2]] [0, 1] [0] 1
      (by decide) (by decide)⟩

/-- Unfolding of one iteration of the selection loop. -/
theorem greedyLoop_succ (s : List ℚ → ℚ) (k : Nat) (d : List (List ℚ)) (i : List Nat)
    (c : List ℚ) :
    greedyLoop s (k + 1) d i c
      = (i.getD (iterChoice s d c) 0
          :: (greedyLoop s k (d.eraseIdx (iterChoice s d c)) (i.eraseIdx (iterChoice s d c))
            (nextCounts s d c)).1,
        (greedyLoop s k (d.eraseIdx (iterChoice s d c)) (i.eraseIdx (iterChoice s d c))
          (nextCounts s d c)).2) := rfl

/-- Full evaluation of the selection loop on the spec's example matrix
(4 genes, 3 genomes, pseudocount 1/10 already added, p = min): rows are
picked in the order 3, 0, 1 and the final counts are [5.3, 5.3, 1.3]. -/
theorem greedyLoop_eval_example_matrix :
    greedyLoop rowMin 3
        [[41/10, 1/10, 1/10], [1/10, 41/10, 1/10], [1/10, 1/10, 41/10],
          [11/10, 11/10, 11/10]] [0, 1, 2, 3] [0, 0, 0]
      = ([3, 0, 1], [53/10, 53/10, 13/10]) := by
  have c1 : iterChoice rowMin [[41/10, 1/10, 1/10], [1/10, 41/10, 1/10], [1/10, 1/10, 41/10],
      [11/10, 11/10, 11/10]] [0, 0, 0] = 3 := by
    norm_num [iterChoice, iterScores, iterSums, vecAdd, rowMin, argmax, min_def]
  have n1 : nextCounts rowMin [[41/10, 1/10, 1/10], [1/10, 41/10, 1/10], [1/10, 1/10, 41/10],
      [11/10, 11/10, 11/10]] [0, 0, 0] = [11/10, 11/10, 11/10] := by
    norm_num [nextCounts, iterChoice, iterScores, iterSums, vecAdd, rowMin, argmax, min_def]
  have c2 : iterChoice rowMin [[41/10, 1/10, 1/10], [1/10, 41/10, 1/10], [1/10, 1/10, 41/10]]
      [11/10, 11/10, 11/10] = 0 := by
    norm_num [iterChoice, iterScores, iterSums, vecAdd, rowMin, argmax, min_def]
  have n2 : nextCounts rowMin [[41/10, 1/10, 1/10], [1/10, 41/10, 1/10], [1/10, 1/10, 41/10]]
      [11/10, 11/10, 11/10] = [26/5, 6/5, 6/5] := by
    norm_num [nextCounts, iterChoice, iterScores, iterSums, vecAdd, rowMin, argmax, min_def]
  have c3 : iterChoice rowMin [[1/10, 41/10, 1/10], [1/10, 1/10, 41/10]]
      [26/5, 6/5, 6/5] = 0 := by
    norm_num [iterChoice, iterScores, iterSums, vecAdd, rowMin, argmax, min_def]
  have n3 : nextCounts rowMin [[1/10, 41/10, 1/10], [1/10, 1/10, 41/10]]
      [26/5, 6/5, 6/5] = [53/10, 53/10, 13/10] := by
    norm_num [nextCounts, iterChoice, iterScores, iterSums, vecAdd, rowMin, argmax, min_def]
  have L1 : greedyLoop rowMin 1 [[1/10, 41/10, 1/10], [1/10, 1/10, 41/10]] [1, 2]
      [26/5, 6/5, 6/5] = ([1], [53/10, 53/10, 13/10]) := by
    rw [show (1:Nat) = 0 + 1 from rfl, greedyLoop_succ, c3, n3]
    norm_num [greedyLoop]
  have L2 : greedyLoop rowMin 2 [[41/10, 1/10, 1/10], [1/10, 41/10, 1/10], [1/10, 1/10, 41/10]]
      [0, 1, 2] [11/10, 11/10, 11/10] = ([0, 1], [53/10, 53/10, 13/10]) := by
    rw [show (2:Nat) = 1 + 1 from rfl, greedyLoop_succ, c2, n2]
    norm_num [List.eraseIdx, L1]
  rw [show (3:Nat) = 2 + 1 from rfl, greedyLoop_succ, c1, n1]
  norm_num [List.eraseIdx, L2]

/-- The spec example's matrix after adding the pseudocount 1/10. -/
theorem example_matrix_augmented :
    ([[4, 0, 0], [0, 4, 0], [0, 0, 4], [1, 1, 1]] : List (List ℚ)).map (List.map (· + 1/10))
      = [[41/10, 1/10, 1/10], [1/10, 41/10, 1/10], [1/10, 1/10, 41/10],
        [11/10, 11/10, 11/10]] := by
  norm_num

/-- On the spec example the greedy call picks rows [3, 0, 1]. -/
theorem greedy_eval_example_matrix :
    greedy_power_mean_sample_final [[4, 0, 0], [0, 4, 0], [0, 0, 4], [1, 1, 1]] 3 3 rowMin (1/10)
      = Except.ok [3, 0, 1] := by
  unfold greedy_power_mean_sample_final
  rw [if_neg (by norm_num), if_neg (by norm_num [allZero]), if_neg (by norm_num)]
  rw [show List.length [[(4:ℚ), 0, 0], [0, 4, 0], [0, 0, 4], [1, 1, 1]] = 4 from rfl]
  rw [example_matrix_augmented]
  rw [show List.range 4 = [0, 1, 2, 3] from rfl,
    show List.replicate 3 (0:ℚ) = [0, 0, 0] from rfl,
    show (3:Int).toNat = 3 from rfl, greedyLoop_eval_example_matrix]

/-- C4 counterexample: on the spec's example matrix with k = 3, p = min,
pseudocount = 0.1, the greedy call does pick the all-ones row (index 3)
first, but the final cumulative totals are [5.3, 5.3, 1.3], so they are
NOT all at least 4.1 — the claim is false at this input. -/
theorem C4_counterexample :
    greedy_power_mean_sample_final [[4, 0, 0], [0, 4, 0], [0, 0, 4], [1, 1, 1]] 3 3 rowMin (1/10)
        = Except.ok [3, 0, 1]
      ∧ ¬(∀ x ∈ (greedyLoop rowMin 3
          (([[4, 0, 0], [0, 4, 0], [0, 0, 4], [1, 1, 1]] : List (List ℚ)).map
            (List.map (· + 1/10))) (List.range 4) (List.replicate 3 0)).2, (41/10 : ℚ) ≤ x) := by
  constructor
  · exact greedy_eval_example_matrix
  · rw [example_matrix_augmented,
      show List.range 4 = [0, 1, 2, 3] from rfl,
      show List.replicate 3 (0:ℚ) = [0, 0, 0] from rfl,
      greedyLoop_eval_example_matrix]
    intro h
    have := h (13/10) (by norm_num)
    norm_num at this

/-- C4 amended: on the matrix [[4,0,0],[0,4,0],[0,0,4],[1,1,1]] with
k = 3, p = min, pseudocount = 0.1, the all-ones row (index 3) is selected
first, followed by rows 0 and 1, and the final per-genome cumulative
totals are [5.3, 5.3, 1.3] — the two genomes covered by the later picks
end at 5.3 ≥ 4.1, while the genome whose unit row was never selected ends
at 1.3 < 4.1. -/
theorem C4_amended_first_pick_and_final_counts :
    greedy_power_mean_sample_final [[4, 0, 0], [0, 4, 0], [0, 0, 4], [1, 1, 1]] 3 3 rowMin (1/10)
        = Except.ok [3, 0, 1]
      ∧ (greedyLoop rowMin 3
          (([[4, 0, 0], [0, 4, 0], [0, 0, 4], [1, 1, 1]] : List (List ℚ)).map
            (List.map (· + 1/10))) (List.range 4) (List.replicate 3 0)).2
        = [53/10, 53/10, 13/10] := by
  constructor
  · exact greedy_eval_example_matrix
  · rw [example_matrix_augmented,
      show List.range 4 = [0, 1, 2, 3] from rfl,
      show List.replicate 3 (0:ℚ) = [0, 0, 0] from rfl,
      greedyLoop_eval_example_matrix]

/-- Folding marker rows into the accumulator keeps its length, provided
every accessed row has the accumulator's length. -/
theorem foldl_vecAdd_length (adj : List (List ℚ)) :
    ∀ (markers : List Nat) (acc : List ℚ),
      (∀ i ∈ markers, (adj.getD i []).length = acc.length) →
      (markers.foldl (fun acc i => vecAdd acc (adj.getD i [])) acc).length = acc.length
  | [], _, _ => rfl
  | i :: ms, acc, hrow => by
    have hi : (adj.getD i []).length = acc.length := hrow i (List.mem_cons_self i ms)
    have hacc : (vecAdd acc (adj.getD i [])).length = acc.length := by
      simp only [vecAdd, List.length_zipWith]
      omega
    have hrec := foldl_vecAdd_length adj ms (vecAdd acc (adj.getD i []))
      (by intro j hj; rw [hacc]; exact hrow j (List.mem_cons_of_mem i hj))
    simp only [List.foldl_cons]
    rw [hrec, hacc]

/-- Length of the selected-row column sums. -/
theorem length_selSums (adj : List (List ℚ)) (markers : List Nat) (m : Nat)
    (hrow : ∀ i ∈ markers, (adj.getD i []).length = m) :
    (selSums adj markers m).length = m := by
  have := foldl_vecAdd_length adj markers (List.replicate m 0)
    (by simpa using hrow)
  simpa [selSums] using this

/-- Membership characterisation of `get_genomes_to_keep`: a genome label
is returned exactly when it sits at a column whose selected-row sum
reaches the code's threshold. -/
theorem mem_get_genomes_to_keep (adj : List (List ℚ)) (k : ℤ) (markers : List Nat)
    (mm : MinMarkers) (genomes : List Nat)
    (hrow : ∀ i ∈ markers, (adj.getD i []).length = genomes.length) (g : Nat) :
    g ∈ get_genomes_to_keep adj k markers mm genomes ↔
      ∃ j, j < genomes.length ∧ genomes.getD j 0 = g ∧
        mmThreshold mm k ≤ (selSums adj markers genomes.length).getD j 0 := by
  have hslen : (selSums adj markers genomes.length).length = genomes.length :=
    length_selSums adj markers genomes.length hrow
  have hzlen : (genomes.zip (selSums adj markers genomes.length)).length = genomes.length := by
    rw [List.length_zip, hslen, min_self]
  unfold get_genomes_to_keep
  simp only [List.mem_map, List.mem_filter, decide_eq_true_eq]
  constructor
  · rintro ⟨p, ⟨hzip, hcmp⟩, rfl⟩
    rcases List.mem_iff_getElem.mp hzip with ⟨j, hj, hget⟩
    have hjg : j < genomes.length := by omega
    have hjs : j < (selSums adj markers genomes.length).length := by omega
    rw [List.getElem_zip] at hget
    refine ⟨j, hjg, ?_, ?_⟩
    · rw [getD_eq_get_of_lt genomes 0 hjg, List.get_eq_getElem, ← hget]
    · rw [getD_eq_get_of_lt _ 0 hjs, List.get_eq_getElem]
      have : p.2 = (selSums adj markers genomes.length)[j] := by rw [← hget]
      rwa [this] at hcmp
  · rintro ⟨j, hjg, hg, hcmp⟩
    have hjs : j < (selSums adj markers genomes.length).length := by omega
    have hjz : j < (genomes.zip (selSums adj markers genomes.length)).length := by omega
    refine ⟨(genomes.zip (selSums adj markers genomes.length))[j], ⟨?_, ?_⟩, ?_⟩
    · exact List.getElem_mem hjz
    · rw [List.getElem_zip]
      rwa [getD_eq_get_of_lt _ 0 hjs, List.get_eq_getElem] at hcmp
    · rw [List.getElem_zip]
      rwa [getD_eq_get_of_lt genomes 0 hjg, List.get_eq_getElem] at hg

/-- C5: `get_genomes_to_keep` returns exactly the genomes whose
selected-row total (raw matrix values, no pseudocount) reaches
`τ = min_markers * k` when `min_markers` is a float in [0, 1] and
`τ = min_markers` when it is an integer. -/
theorem C5_coverage_filter_threshold
    (adj : List (List ℚ)) (k : ℤ) (markers : List Nat) (mm : MinMarkers) (genomes : List Nat)
    (hrow : ∀ i ∈ markers, (adj.getD i []).length = genomes.length)
    (hmm : (∃ q, mm = MinMarkers.float q ∧ 0 ≤ q ∧ q ≤ 1) ∨ ∃ z, mm = MinMarkers.int z) :
    ∃ τ : ℚ,
      ((∀ q, mm = MinMarkers.float q → τ = q * k) ∧
        (∀ z, mm = MinMarkers.int z → τ = (z : ℚ))) ∧
      ∀ g, g ∈ get_genomes_to_keep adj k markers mm genomes ↔
        ∃ j, j < genomes.length ∧ genomes.getD j 0 = g ∧
          τ ≤ (selSums adj markers genomes.length).getD j 0 := by
  refine ⟨mmThreshold mm k, ⟨?_, ?_⟩, fun g =>
    mem_get_genomes_to_keep adj k markers mm genomes hrow g⟩
  · rintro q rfl
    rcases hmm with ⟨q', hq', hq0, hq1⟩ | ⟨z, hz⟩
    · cases hq'
      rw [mmThreshold, if_pos ⟨hq0, hq1⟩]
    · cases hz
  · rintro z rfl
    rfl

/-- C5 witness: one marker row with per-genome totals [5, 3, 1], k = 3
and min_markers = 0.5, i.e. τ = 1.5; genomes with totals 5 and 3 are
retained. -/
theorem C5_witness :
    (∀ i ∈ ([0] : List Nat),
        (([[5, 3, 1]] : List (List ℚ)).getD i []).length = ([10, 20, 30] : List Nat).length) ∧
      ((∃ q, MinMarkers.float (1/2) = MinMarkers.float q ∧ 0 ≤ q ∧ q ≤ 1) ∨
        ∃ z, MinMarkers.float (1/2) = MinMarkers.int z) ∧
      (∃ τ : ℚ,
        ((∀ q, MinMarkers.float (1/2) = MinMarkers.float q → τ = q * (3 : ℤ)) ∧
          (∀ z, MinMarkers.float (1/2) = MinMarkers.int z → τ = (z : ℚ))) ∧
        ∀ g, g ∈ get_genomes_to_keep [[5, 3, 1]] 3 [0] (MinMarkers.float (1/2)) [10, 20, 30] ↔
          ∃ j, j < ([10, 20, 30] : List Nat).length ∧ List.getD [10, 20, 30] j 0 = g ∧
            τ ≤ (selSums [[5, 3, 1]] [0] ([10, 20, 30] : List Nat).length).getD j 0) :=
  ⟨by decide, Or.inl ⟨1/2, rfl, by norm_num, by norm_num⟩,
    C5_coverage_filter_threshold [[5, 3, 1]] 3 [0] (MinMarkers.float (1/2)) [10, 20, 30]
      (by decide) (Or.inl ⟨1/2, rfl, by norm_num, by norm_num⟩)⟩

/-- C6 counterexample: with min_markers the out-of-domain fraction 1.5,
`get_genomes_to_keep` does not fail — it returns the genome set whose
totals reach the absolute threshold 1.5 (here the genomes with totals 5
and 3), contradicting the claimed invalid-parameter error. -/
theorem C6_counterexample :
    get_genomes_to_keep [[5, 3, 1]] 3 [0] (MinMarkers.float (3/2)) [10, 20, 30] = [10, 20] := by
  norm_num [get_genomes_to_keep, selSums, vecAdd, mmThreshold, List.replicate, List.filter]

/-- C6 amended: `get_genomes_to_keep` performs no validation of
`min_markers`: for every out-of-domain value (a negative or above-one
float, or a negative integer) it still returns a genome set, using the
out-of-domain value directly as the absolute threshold (no scaling by
k). -/
theorem C6_amended_no_min_markers_validation
    (adj : List (List ℚ)) (k : ℤ) (markers : List Nat) (genomes : List Nat)
    (hrow : ∀ i ∈ markers, (adj.getD i []).length = genomes.length) :
    (∀ q : ℚ, (q < 0 ∨ 1 < q) →
      ∀ g, g ∈ get_genomes_to_keep adj k markers (MinMarkers.float q) genomes ↔
        ∃ j, j < genomes.length ∧ genomes.getD j 0 = g ∧
          q ≤ (selSums adj markers genomes.length).getD j 0)
    ∧ ∀ z : ℤ, z < 0 →
      ∀ g, g ∈ get_genomes_to_keep adj k markers (MinMarkers.int z) genomes ↔
        ∃ j, j < genomes.length ∧ genomes.getD j 0 = g ∧
          (z : ℚ) ≤ (selSums adj markers genomes.length).getD j 0 := by
  constructor
  · intro q hq g
    have hτ : mmThreshold (MinMarkers.float q) k = q := by
      rw [mmThreshold, if_neg]
      rintro ⟨h0, h1⟩
      rcases hq with h | h
      · linarith
      · linarith
    have hmem := mem_get_genomes_to_keep adj k markers (MinMarkers.float q) genomes hrow g
    rwa [hτ] at hmem
  · intro z hz g
    exact mem_get_genomes_to_keep adj k markers (MinMarkers.int z) genomes hrow g

/-- C6 amended witness: the fraction 3/2 is used directly as the
threshold and a genome set is returned. -/
theorem C6_amended_witness :
    (∀ i ∈ ([0] : List Nat),
        (([[5, 3, 1]] : List (List ℚ)).getD i []).length = ([10, 20, 30] : List Nat).length) ∧
      ((3 : ℚ)/2 < 0 ∨ 1 < (3 : ℚ)/2) ∧
      ∀ g, g ∈ get_genomes_to_keep [[5, 3, 1]] 3 [0] (MinMarkers.float (3/2)) [10, 20, 30] ↔
        ∃ j, j < ([10, 20, 30] : List Nat).length ∧ List.getD [10, 20, 30] j 0 = g ∧
          (3 : ℚ)/2 ≤ (selSums [[5, 3, 1]] [0] ([10, 20, 30] : List Nat).length).getD j 0 :=
  ⟨by decide, Or.inr (by norm_num),
    (C6_amended_no_min_markers_validation [[5, 3, 1]] 3 [0] [10, 20, 30] (by decide)).1
      (3/2) (Or.inr (by norm_num))⟩

/-- Folding max over a list dominates the starting value. -/
theorem le_foldl_max : ∀ (l : List ℚ) (a : ℚ), a ≤ l.foldl max a
  | [], _ => le_refl _
  | x :: xs, a => le_trans (le_max_left a x) (le_foldl_max xs (max a x))

/-- Folding max over a list dominates every member. -/
theorem mem_le_foldl_max : ∀ (l : List ℚ) (a x : ℚ), x ∈ l → x ≤ l.foldl max a
  | y :: ys, a, x, hx => by
    rcases List.mem_cons.mp hx with rfl | hx
    · exact le_trans (le_max_right a x) (le_foldl_max ys (max a x))
    · exact mem_le_foldl_max ys (max a y) x hx

/-- Every member of a row is at most its maximum. -/
theorem mem_le_rowMax (l : List ℚ) (x : ℚ) (hx : x ∈ l) : x ≤ rowMax l := by
  match l, hx with
  | y :: ys, hx =>
    rcases List.mem_cons.mp hx with rfl | hx
    · exact le_foldl_max ys x
    · exact mem_le_foldl_max ys y x hx

/-- A record's bit score never exceeds the maximum of its own group. -/
theorem bit_score_le_groupMax (df : List Rec) (r : Rec) (hr : r ∈ df) :
    r.bit_score ≤ groupMax df r.genome r.gene_family := by
  have hmem : r.bit_score ∈ groupScores df r.genome r.gene_family := by
    simp only [groupScores, List.mem_map, List.mem_filter]
    exact ⟨r, ⟨hr, by simp⟩, rfl⟩
  exact mem_le_rowMax _ _ hmem

/-- C7: `filter_copies` errors exactly when the threshold is outside
[0, 1]; inside the domain it keeps exactly the records whose bit score
is at least `t` times their group maximum; at `t = 0` it keeps every
record (bit scores being non-negative) and at `t = 1` exactly the
records tied with their group maximum. -/
theorem C7_filter_copies_threshold (df : List Rec) (t : ℚ) :
    ((∃ e, filter_copies df t = Except.error e) ↔ (t < 0 ∨ 1 < t))
    ∧ (0 ≤ t → t ≤ 1 →
        ∃ res, filter_copies df t = Except.ok res ∧
          ∀ r : Rec, r ∈ res ↔
            r ∈ df ∧ groupMax df r.genome r.gene_family * t ≤ r.bit_score)
    ∧ ((∀ r ∈ df, 0 ≤ r.bit_score) → filter_copies df 0 = Except.ok df)
    ∧ (∃ res, filter_copies df 1 = Except.ok res ∧
        ∀ r : Rec, r ∈ res ↔
          r ∈ df ∧ r.bit_score = groupMax df r.genome r.gene_family) := by
  have hdom : ¬(0 ≤ t ∧ t ≤ 1) ↔ (t < 0 ∨ 1 < t) := by
    rw [not_and_or, not_le, not_le]
  refine ⟨?_, ?_, ?_, ?_⟩
  · by_cases hc : 0 ≤ t ∧ t ≤ 1
    · refine iff_of_false ?_ ?_
      · rintro ⟨e, he⟩
        rw [filter_copies, if_neg (not_not_intro hc)] at he
        simp at he
      · intro h
        exact (hdom.mpr h) hc
    · refine iff_of_true ?_ (hdom.mp hc)
      rw [filter_copies, if_pos hc]
      exact ⟨_, rfl⟩
  · intro h0 h1
    refine ⟨_, by rw [filter_copies, if_neg (not_not_intro ⟨h0, h1⟩)], ?_⟩
    intro r
    simp [List.mem_filter]
  · intro hnn
    rw [filter_copies, if_neg (not_not_intro ⟨le_refl 0, by norm_num⟩)]
    congr 1
    rw [List.filter_eq_self]
    intro r hr
    simp only [decide_eq_true_eq, mul_zero]
    exact hnn r hr
  · refine ⟨_, by rw [filter_copies, if_neg (not_not_intro ⟨by norm_num, le_refl 1⟩)], ?_⟩
    intro r
    simp only [List.mem_filter, decide_eq_true_eq, mul_one]
    constructor
    · rintro ⟨hr, hge⟩
      exact ⟨hr, le_antisymm (bit_score_le_groupMax df r hr) hge⟩
    · rintro ⟨hr, heq⟩
      exact ⟨hr, le_of_eq heq.symm⟩

/-- C7 witness: one (genome, gene_family) group with scores [10, 10, 7];
t = 1 keeps the two tied maxima, t = 0 keeps everything. -/
theorem C7_witness :
    (∀ r ∈ [Rec.mk 1 1 10, Rec.mk 1 1 10, Rec.mk 1 1 7], 0 ≤ r.bit_score) ∧
      filter_copies [Rec.mk 1 1 10, Rec.mk 1 1 10, Rec.mk 1 1 7] 0
        = Except.ok [Rec.mk 1 1 10, Rec.mk 1 1 10, Rec.mk 1 1 7] ∧
      (0 : ℚ) ≤ 1 ∧ (1 : ℚ) ≤ 1 ∧
      ∃ res, filter_copies [Rec.mk 1 1 10, Rec.mk 1 1 10, Rec.mk 1 1 7] 1
          = Except.ok res ∧
        ∀ r : Rec, r ∈ res ↔
          r ∈ [Rec.mk 1 1 10, Rec.mk 1 1 10, Rec.mk 1 1 7] ∧
            r.bit_score = groupMax [Rec.mk 1 1 10, Rec.mk 1 1 10, Rec.mk 1 1 7]
              r.genome r.gene_family :=
  ⟨by decide,
    (C7_filter_copies_threshold [Rec.mk 1 1 10, Rec.mk 1 1 10, Rec.mk 1 1 7] 0).2.2.1
      (by decide),
    by norm_num, by norm_num,
    (C7_filter_copies_threshold [Rec.mk 1 1 10, Rec.mk 1 1 10, Rec.mk 1 1 7] 1).2.2.2⟩

/-- uniqueSorted output is sorted. -/
theorem uniqueSorted_sorted (l : List Nat) : (uniqueSorted l).Sorted (· ≤ ·) :=
  List.sorted_insertionSort _ _

/-- uniqueSorted output has no duplicates. -/
theorem uniqueSorted_nodup (l : List Nat) : (uniqueSorted l).Nodup :=
  (List.perm_insertionSort _ _).nodup_iff.mpr (List.nodup_dedup l)

/-- uniqueSorted output has exactly the input's values. -/
theorem mem_uniqueSorted (l : List Nat) (x : Nat) : x ∈ uniqueSorted l ↔ x ∈ l := by
  rw [uniqueSorted, (List.perm_insertionSort _ _).mem_iff, List.mem_dedup]

/-- Row-major pair encoding is injective when the column parts are in
range. -/
theorem encode_inj {m p q i j : Nat} (hq : q < m) (hj : j < m)
    (h : p * m + q = i * m + j) : p = i ∧ q = j := by
  have h' : m * p + q = m * i + j := by
    rw [Nat.mul_comm m p, Nat.mul_comm m i]
    exact h
  have h1 : (m * p + q) % m = q % m := Nat.mul_add_mod m p q
  have h2 : (m * i + j) % m = j % m := Nat.mul_add_mod m i j
  have hqj : q = j := by
    rw [← Nat.mod_eq_of_lt hq, ← h1, h', h2, Nat.mod_eq_of_lt hj]
  refine ⟨?_, hqj⟩
  have hpm : m * p = m * i := by omega
  exact Nat.eq_of_mul_eq_mul_left (by omega) hpm

/-- A row-major flat index stays below the matrix size. -/
theorem index_flat_lt {i j n m : Nat} (hi : i < n) (hj : j < m) : i * m + j < n * m :=
  calc i * m + j < i * m + m := by omega
  _ = (i + 1) * m := by ring
  _ ≤ n * m := Nat.mul_le_mul_right m (by omega)

/-- Counting a flat combined index in the encoded edge list equals
counting the corresponding label pair in the zipped edge list. -/
theorem count_encode (genes genomes : List Nat) (hg : genes.Nodup) (hm : genomes.Nodup) :
    ∀ (ga gb : List Nat), ga.length = gb.length →
      (∀ a ∈ ga, a ∈ genes) → (∀ b ∈ gb, b ∈ genomes) →
      ∀ (i j : Nat), i < genes.length → j < genomes.length →
      (List.zipWith (fun a b => genes.indexOf a * genomes.length + genomes.indexOf b)
          ga gb).count (i * genomes.length + j)
        = (ga.zip gb).count (genes.getD i 0, genomes.getD j 0)
  | [], [], _, _, _ => by
    intro i j hi hj
    simp
  | [], b :: gb, hl, _, _ => by simp at hl
  | a :: ga, [], hl, _, _ => by simp at hl
  | a :: ga, b :: gb, hl, hga, hgb => by
    intro i j hi hj
    have hrec := count_encode genes genomes hg hm ga gb (by simpa using hl)
      (fun x hx => hga x (List.mem_cons_of_mem a hx))
      (fun x hx => hgb x (List.mem_cons_of_mem b hx)) i j hi hj
    have hain : a ∈ genes := hga a (List.mem_cons_self a ga)
    have hbin : b ∈ genomes := hgb b (List.mem_cons_self b gb)
    have haidx : genes.indexOf a < genes.length := List.indexOf_lt_length.mpr hain
    have hbidx : genomes.indexOf b < genomes.length := List.indexOf_lt_length.mpr hbin
    have hkey : (genes.indexOf a * genomes.length + genomes.indexOf b
        = i * genomes.length + j)
        ↔ ((a, b) = (genes.getD i 0, genomes.getD j 0)) := by
      constructor
      · intro h
        obtain ⟨hia, hjb⟩ := encode_inj hbidx hj h
        subst hia
        subst hjb
        rw [getD_eq_get_of_lt genes 0 hi, getD_eq_get_of_lt genomes 0 hj,
          List.indexOf_get, List.indexOf_get]
      · intro h
        obtain ⟨ha, hb⟩ := Prod.mk.injEq .. ▸ h
        rw [getD_eq_get_of_lt genes 0 hi, List.get_eq_getElem] at ha
        rw [getD_eq_get_of_lt genomes 0 hj, List.get_eq_getElem] at hb
        rw [ha, hb, List.indexOf_getElem hg i hi, List.indexOf_getElem hm j hj]
    simp only [List.zipWith_cons_cons, List.zip_cons_cons, List.count_cons, hrec,
      beq_iff_eq]
    rw [if_congr hkey rfl rfl]

/-- Reading an in-range entry of bincount gives the count of that value. -/
theorem getD_bincount (l : List Nat) (minlength v : Nat) (hv : v < minlength) :
    (bincount l minlength).getD v 0 = l.count v := by
  have hlt : v < ((List.range (max minlength
      (l.foldr (fun a b => max (a + 1) b) 0))).map (fun i => l.count i)).length := by
    simp only [List.length_map, List.length_range]
    omega
  rw [bincount, getD_eq_get_of_lt _ 0 hlt]
  simp

/-- Reading an in-range entry of the reshaped matrix gives the flat list
entry in row-major order. -/
theorem getD_reshape2 (l : List Nat) (rows cols i j : Nat) (hi : i < rows) (hj : j < cols) :
    ((reshape2 l rows cols).getD i []).getD j 0 = l.getD (i * cols + j) 0 := by
  have h1 : i < ((List.range rows).map
      (fun i => (List.range cols).map (fun j => l.getD (i * cols + j) 0))).length := by
    simp only [List.length_map, List.length_range]
    omega
  rw [reshape2, getD_eq_get_of_lt _ [] h1]
  simp only [List.get_eq_getElem, List.getElem_map, List.getElem_range]
  have h2 : j < ((List.range cols).map (fun j2 => l.getD (i * cols + j2) 0)).length := by
    simp only [List.length_map, List.length_range]
    omega
  rw [getD_eq_get_of_lt _ 0 h2]
  simp only [List.get_eq_getElem, List.getElem_map, List.getElem_range]

/-- C8: `build_copy_number_matrix` returns the sorted deduplicated labels
of both edge columns and a matrix whose (i, j) entry counts the edge
positions carrying the pair (genes[i], genomes[j]); an empty edge list
yields a 0-by-0 matrix and empty label arrays. -/
theorem C8_copy_number_matrix_counts_pairs
    (eg eo : List Nat) (adj : List (List Nat)) (genomes genes : List Nat)
    (hlen : eg.length = eo.length)
    (hbuild : build_copy_number_matrix eg eo = (adj, genomes, genes)) :
    genes.Sorted (· ≤ ·) ∧ genes.Nodup ∧ (∀ x, x ∈ genes ↔ x ∈ eg)
    ∧ genomes.Sorted (· ≤ ·) ∧ genomes.Nodup ∧ (∀ x, x ∈ genomes ↔ x ∈ eo)
    ∧ adj.length = genes.length
    ∧ (∀ row ∈ adj, row.length = genomes.length)
    ∧ (∀ i j, i < genes.length → j < genomes.length →
        (adj.getD i []).getD j 0 = (eg.zip eo).count (genes.getD i 0, genomes.getD j 0))
    ∧ (eg = [] → adj = [] ∧ genomes = [] ∧ genes = []) := by
  simp only [build_copy_number_matrix, Prod.mk.injEq] at hbuild
  obtain ⟨hadj, hgenomes, hgenes⟩ := hbuild
  subst hadj
  subst hgenomes
  subst hgenes
  refine ⟨uniqueSorted_sorted eg, uniqueSorted_nodup eg, mem_uniqueSorted eg,
    uniqueSorted_sorted eo, uniqueSorted_nodup eo, mem_uniqueSorted eo,
    ?_, ?_, ?_, ?_⟩
  · simp [reshape2]
  · intro row hrow
    simp only [reshape2, List.mem_map, List.mem_range] at hrow
    obtain ⟨i, _, rfl⟩ := hrow
    simp
  · intro i j hi hj
    rw [getD_reshape2 _ _ _ i j hi hj, getD_bincount _ _ _ (index_flat_lt hi hj)]
    exact count_encode (uniqueSorted eg) (uniqueSorted eo)
      (uniqueSorted_nodup eg) (uniqueSorted_nodup eo) eg eo hlen
      (fun a ha => (mem_uniqueSorted eg a).mpr ha)
      (fun b hb => (mem_uniqueSorted eo b).mpr hb) i j hi hj
  · intro h
    subst h
    have heo : eo = [] := by
      simpa using hlen.symm
    subst heo
    exact ⟨rfl, rfl, rfl⟩

/-- C8 witness: edges (5,7), (3,9), (5,7), (5,9); genes [3, 5], genomes
[7, 9], matrix [[0, 1], [2, 1]]. -/
theorem C8_witness :
    ([5, 3, 5, 5] : List Nat).length = ([7, 9, 7, 9] : List Nat).length ∧
      build_copy_number_matrix [5, 3, 5, 5] [7, 9, 7, 9] = ([[0, 1], [2, 1]], [7, 9], [3, 5]) ∧
      (([3, 5] : List Nat).Sorted (· ≤ ·) ∧ ([3, 5] : List Nat).Nodup ∧
          (∀ x, x ∈ ([3, 5] : List Nat) ↔ x ∈ ([5, 3, 5, 5] : List Nat))
        ∧ ([7, 9] : List Nat).Sorted (· ≤ ·) ∧ ([7, 9] : List Nat).Nodup ∧
          (∀ x, x ∈ ([7, 9] : List Nat) ↔ x ∈ ([7, 9, 7, 9] : List Nat))
        ∧ ([[0, 1], [2, 1]] : List (List Nat)).length = ([3, 5] : List Nat).length
        ∧ (∀ row ∈ ([[0, 1], [2, 1]] : List (List Nat)),
            row.length = ([7, 9] : List Nat).length)
        ∧ (∀ i j, i < ([3, 5] : List Nat).length → j < ([7, 9] : List Nat).length →
            (([[0, 1], [2, 1]] : List (List Nat)).getD i []).getD j 0
              = (([5, 3, 5, 5] : List Nat).zip [7, 9, 7, 9]).count
                (List.getD [3, 5] i 0, List.getD [7, 9] j 0))
        ∧ (([5, 3, 5, 5] : List Nat) = [] →
            ([[0, 1], [2, 1]] : List (List Nat)) = [] ∧ ([7, 9] : List Nat) = [] ∧
              ([3, 5] : List Nat) = [])) :=
  ⟨rfl, by decide,
    C8_copy_number_matrix_counts_pairs [5, 3, 5, 5] [7, 9, 7, 9] [[0, 1], [2, 1]] [7, 9] [3, 5]
      rfl (by decide)⟩

end TMarSel
